import Mathlib

/-!
Verification of the light-beam traversal program (day16): a shallow embedding
of `src/crates/day16/src/main.rs` together with proofs about its behaviour.

Modelling conventions:
* Rust `usize` coordinates become `Nat` (all arithmetic in the source is
  bounds-checked before subtraction, so no wrap-around occurs).
* A Rust `Vec<Vec<T>>` becomes `List (List T)`.
* A Rust run that aborts (an unrecognized tile character, or an
  out-of-bounds index such as `grid[0]` on an empty grid) is modelled by
  `Option`/an error constructor: `none`/`.oobPanic` marks the abort, and no
  partial result is produced.
* The unbounded `while let` worklist loop is modelled with explicit fuel;
  `fire_laser` supplies fuel `12 * width * height + 2`, and the termination
  theorem shows this fuel always suffices, so the embedded function computes
  the same fixpoint the Rust loop does.
-/

/-- Tile alphabet, from `enum Tile` in the source. -/
inductive Tile where
  | Empty
  | FMirror
  | BMirror
  | HSplitter
  | VSplitter
deriving DecidableEq, Fintype

/-- Travel directions, from `enum Direction` in the source. -/
inductive Direction where
  | Up
  | Down
  | Left
  | Right
deriving DecidableEq, Fintype

/-- A beam cursor, from `struct Laser` in the source: a position plus a
direction of travel. -/
structure Laser where
  x : Nat
  y : Nat
  direction : Direction
deriving DecidableEq

/-- Tile classifier, from `impl From<char> for Tile`. The Rust version
aborts the whole program on an unknown character; that abort is modelled by
`none`. -/
def tileFromChar (value : Char) : Option Tile :=
  if value = '.' then some Tile.Empty
  else if value = '/' then some Tile.FMirror
  else if value = '\\' then some Tile.BMirror
  else if value = '-' then some Tile.HSplitter
  else if value = '|' then some Tile.VSplitter
  else none

/-- Split a character sequence at every newline, keeping empty pieces. -/
def splitNL : List Char → List (List Char)
  | [] => [[]]
  | c :: cs =>
    if c = '\n' then [] :: splitNL cs
    else
      match splitNL cs with
      | [] => [[c]]
      | l :: ls => (c :: l) :: ls

/-- Rust `str::lines`: split on newline; an empty string yields no lines and
a trailing newline does not yield a trailing empty line. (The inputs in this
repository use no `\r`.) -/
def strLines (s : String) : List (List Char) :=
  match (splitNL s.toList).reverse with
  | [] :: rest => rest.reverse
  | parts => parts.reverse

/-- Effectful map over a list in the `Option` monad, written out explicitly:
this is the semantics of Rust's `iter().map(f).collect()` when `f` can abort
(the first failure aborts the whole collection, no partial list escapes). -/
def mapOption (f : α → Option β) : List α → Option (List β)
  | [] => some []
  | a :: l =>
    match f a, mapOption f l with
    | some b, some bs => some (b :: bs)
    | _, _ => none

/-- Input parser, from `parse_input` in the source: each line becomes a row
of tiles; any unrecognized character aborts the whole parse. -/
def parse_input (s : String) : Option (List (List Tile)) :=
  mapOption (fun line => mapOption tileFromChar line) (strLines s)

/-- Bounds-checked stepping, from `next_tile` in the source: move the laser
one cell in its travel direction, or return `none` when the step would leave
the `width × height` grid. -/
def next_tile (width height : Nat) (laser : Laser) : Option Laser :=
  match laser.direction with
  | Direction.Up =>
    if laser.y > 0 then some { laser with y := laser.y - 1 } else none
  | Direction.Down =>
    if laser.y + 1 < height then some { laser with y := laser.y + 1 } else none
  | Direction.Left =>
    if laser.x > 0 then some { laser with x := laser.x - 1 } else none
  | Direction.Right =>
    if laser.x + 1 < width then some { laser with x := laser.x + 1 } else none

/-- Direction-transition table, from `new_directions` in the source. -/
def new_directions (tile : Tile) (direction : Direction) : List Direction :=
  match tile, direction with
  | Tile.FMirror, Direction.Up => [Direction.Right]
  | Tile.FMirror, Direction.Down => [Direction.Left]
  | Tile.FMirror, Direction.Left => [Direction.Down]
  | Tile.FMirror, Direction.Right => [Direction.Up]
  | Tile.BMirror, Direction.Up => [Direction.Left]
  | Tile.BMirror, Direction.Down => [Direction.Right]
  | Tile.BMirror, Direction.Left => [Direction.Up]
  | Tile.BMirror, Direction.Right => [Direction.Down]
  | Tile.HSplitter, Direction.Up => [Direction.Left, Direction.Right]
  | Tile.HSplitter, Direction.Down => [Direction.Left, Direction.Right]
  | Tile.VSplitter, Direction.Left => [Direction.Up, Direction.Down]
  | Tile.VSplitter, Direction.Right => [Direction.Up, Direction.Down]
  | _, _ => [direction]

/-- The all-false energized marker grid, from the `result` initializer in
`fire_laser`: the same shape as the tile grid. -/
def initResult (grid : List (List Tile)) : List (List Bool)  :=
  grid.map (fun line => line.map (fun _ => false))

/-- Set the energized marker at row `y`, column `x`, from
`result[laser.y][laser.x] = true;` in the source. (The loop checks the index
against the grid before calling this, exactly where Rust's indexing would
abort.) -/
def markCell (result : List (List Bool)) (y x : Nat) : List (List Bool) :=
  result.set y ((result[y]?.getD []).set x true)

/-- Outcome of the worklist loop: a finished run carrying the marker grid
and the visited set, fuel exhaustion (an artefact of the embedding, shown
unreachable for the fuel `fire_laser` supplies), or the abort Rust's
out-of-bounds indexing `result[laser.y][laser.x]` / `grid[laser.y][laser.x]`
would raise. -/
inductive LoopOut where
  | ok (result : List (List Bool)) (seen : List Laser)
  | outOfFuel
  | oobPanic
deriving DecidableEq

/-- FIFO scheduling, from the source's `VecDeque` with `push_back` /
`pop_front`: pushed cursors go behind the remaining worklist. -/
def pushFifo (rest pushed : List Laser) : List Laser := rest ++ pushed

/-- LIFO scheduling (a stack: each pushed cursor goes on top, in front of
the remaining worklist) — the alternative discipline the loop could use. -/
def pushLifo (rest pushed : List Laser) : List Laser := pushed.reverse ++ rest

/-- The worklist loop of `fire_laser`, parametrized by the scheduling
discipline `push` (how freshly pushed cursors are combined with the rest of
the worklist) and by explicit fuel. Each iteration: pop a cursor, mark its
cell energized, skip it if already visited, otherwise record it as visited
and push its bounds-checked successors. -/
def fireLoopD (push : List Laser → List Laser → List Laser)
    (grid : List (List Tile)) (width height : Nat) :
    Nat → List Laser → List Laser → List (List Bool) → LoopOut
  | 0, _, _, _ => LoopOut.outOfFuel
  | _ + 1, [], seen, result => LoopOut.ok result seen
  | fuel + 1, laser :: rest, seen, result =>
    match grid[laser.y]?.bind (fun row => row[laser.x]?) with
    | none => LoopOut.oobPanic
    | some tile =>
      let result := markCell result laser.y laser.x
      if laser ∈ seen then
        fireLoopD push grid width height fuel rest seen result
      else
        let pushed := (new_directions tile laser.direction).filterMap
          (fun d => next_tile width height { laser with direction := d })
        fireLoopD push grid width height fuel (push rest pushed) (laser :: seen) result

/-- The source's loop: FIFO, as in the Rust `VecDeque`. -/
def fireLoop : List (List Tile) → Nat → Nat →
    Nat → List Laser → List Laser → List (List Bool) → LoopOut :=
  fireLoopD pushFifo

/-- Count of energized cells, from
`result.into_iter().flatten().filter(|e| *e).count()`. -/
def countEnergized (result : List (List Bool)) : Nat :=
  (result.flatten.filter (fun e => e)).length

/-- Traversal engine, from `fire_laser` in the source: seed the worklist
with the start cursor, run the loop, count energized cells. `grid[0]` on an
empty grid aborts, modelled by `none`; the fuel `12 * width * height + 2` is
proved sufficient for every rectangular grid and in-bounds start. -/
def fire_laser (grid : List (List Tile)) (start_laser : Laser) : Option Nat :=
  match grid.head? with
  | none => none
  | some row0 =>
    let height := grid.length
    let width := row0.length
    match fireLoop grid width height (12 * width * height + 2)
        [start_laser] [] (initResult grid) with
    | LoopOut.ok result _ => some (countEnergized result)
    | _ => none

/-- The LIFO variant of the traversal engine: identical to `fire_laser`
except that the worklist is a stack. -/
def fire_laser_lifo (grid : List (List Tile)) (start_laser : Laser) : Option Nat :=
  match grid.head? with
  | none => none
  | some row0 =>
    let height := grid.length
    let width := row0.length
    match fireLoopD pushLifo grid width height (12 * width * height + 2)
        [start_laser] [] (initResult grid) with
    | LoopOut.ok result _ => some (countEnergized result)
    | _ => none

/-- Fixed-start solver, from `part1` in the source: parse, then fire from
the top-left corner pointing right. -/
def part1 (s : String) : Option Nat :=
  match parse_input s with
  | none => none
  | some grid => fire_laser grid { x := 0, y := 0, direction := Direction.Right }

/-- Edge-entry start cursors of `part2` in the source: left edge pointing
Right, right edge pointing Left, top edge pointing Down, bottom edge
pointing Up. -/
def edgeStarts (width height : Nat) : List Laser :=
  (List.range height).map (fun y => { x := 0, y := y, direction := Direction.Right }) ++
  (List.range height).map (fun y => { x := width - 1, y := y, direction := Direction.Left }) ++
  (List.range width).map (fun x => { x := x, y := 0, direction := Direction.Down }) ++
  (List.range width).map (fun x => { x := x, y := height - 1, direction := Direction.Up })

/-- Best-of-all-edge-starts solver, from `part2` in the source: run the
traversal from every edge-entry cursor and keep the maximum count. Any abort
in a run aborts the whole computation, as the Rust panic would. -/
def part2 (s : String) : Option Nat :=
  match parse_input s with
  | none => none
  | some grid =>
    match grid.head? with
    | none => none
    | some row0 =>
      let height := grid.length
      let width := row0.length
      (edgeStarts width height).foldl
        (fun acc l =>
          match acc, fire_laser grid l with
          | some m, some r => some (if r > m then r else m)
          | _, _ => none)
        (some 0)

/-! Derived notions used to state and prove properties of the loop. -/

/-- The tile at row `y`, column `x` (defaulting outside the grid; every use
in the proofs is guarded by bounds). -/
def tileAt (grid : List (List Tile)) (y x : Nat) : Tile :=
  ((grid[y]?.getD [])[x]?).getD Tile.Empty

/-- The energized marker at row `y`, column `x` (false outside the grid). -/
def cellAt (result : List (List Bool)) (y x : Nat) : Bool :=
  ((result[y]?.getD [])[x]?).getD false

/-- Successor cursors of a cursor: the outgoing directions at its tile,
stepped with bounds checking — exactly what one loop iteration pushes. -/
def nexts (grid : List (List Tile)) (width height : Nat) (l : Laser) : List Laser :=
  (new_directions (tileAt grid l.y l.x) l.direction).filterMap
    (fun d => next_tile width height { l with direction := d })

/-- Reachability of traversal states from the start cursor. -/
inductive Reaches (grid : List (List Tile)) (width height : Nat) (start : Laser) :
    Laser → Prop
  | refl : Reaches grid width height start start
  | step {b c : Laser} : Reaches grid width height start b →
      c ∈ nexts grid width height b → Reaches grid width height start c

/-- A grid is rectangular with the given width. -/
def Rect (grid : List (List Tile)) (width : Nat) : Prop :=
  ∀ row ∈ grid, row.length = width

/-- A cursor is inside the `width × height` bounds. -/
def InBounds (width height : Nat) (l : Laser) : Prop :=
  l.x < width ∧ l.y < height

instance (g : List (List Tile)) (w : Nat) : Decidable (Rect g w) :=
  inferInstanceAs (Decidable (∀ row ∈ g, row.length = w))

instance (w h : Nat) (l : Laser) : Decidable (InBounds w h l) :=
  inferInstanceAs (Decidable (_ ∧ _))

/-- The 10×10 reference example grid of the puzzle, from `TEST_INPUT` in the
source's test module. -/
def exampleInput : String :=
  ".|...\\....\n|.-.\\.....\n.....|-...\n........|.\n..........\n.........\\\n..../.\\\\..\n.-.-/..|..\n.|....-|.\\\n..//.|...."

/-- Numeric code of a direction, used to count traversal states. -/
def dirIdx : Direction → Nat
  | Direction.Up => 0
  | Direction.Down => 1
  | Direction.Left => 2
  | Direction.Right => 3

/-- Numeric code of a cursor inside a grid of the given width. -/
def encodeLaser (width : Nat) (l : Laser) : Nat :=
  (l.y * width + l.x) * 4 + dirIdx l.direction

/-- Direction reflected by a left-right mirror flip. -/
def reflectDir : Direction → Direction
  | Direction.Left => Direction.Right
  | Direction.Right => Direction.Left
  | d => d

/-- Tile symbol transformed under a left-right mirror flip: the two diagonal
mirrors swap, the splitters and empty tiles are symmetric. -/
def reflectTile : Tile → Tile
  | Tile.FMirror => Tile.BMirror
  | Tile.BMirror => Tile.FMirror
  | t => t

/-- A cursor reflected left-right inside a grid of the given width. -/
def reflectLaser (width : Nat) (l : Laser) : Laser :=
  { x := width - 1 - l.x, y := l.y, direction := reflectDir l.direction }

/-- The left-right mirror image of a grid: each row reversed, each tile
symbol transformed. -/
def mirrorGrid (grid : List (List Tile)) : List (List Tile) :=
  grid.map (fun row => (row.map reflectTile).reverse)

/-! Basic lemmas: stepping, the transition table, and state counting. -/

theorem next_tile_some_inBounds {width height : Nat} {l l' : Laser}
    (hx : l.x < width) (hy : l.y < height)
    (h : next_tile width height l = some l') : l'.x < width ∧ l'.y < height := by
  rcases l with ⟨x, y, d⟩
  cases d <;> simp only [next_tile] at h <;> split at h <;>
    simp only [Option.some.injEq, reduceCtorEq] at h <;> subst h <;>
    simp_all <;> omega

theorem new_directions_length_le (tile : Tile) (d : Direction) :
    (new_directions tile d).length ≤ 2 := by
  cases tile <;> cases d <;> simp [new_directions]

theorem new_directions_ne_nil (tile : Tile) (d : Direction) :
    new_directions tile d ≠ [] := by
  cases tile <;> cases d <;> simp [new_directions]

theorem dirIdx_lt (d : Direction) : dirIdx d < 4 := by
  cases d <;> simp [dirIdx]

theorem dirIdx_inj {d₁ d₂ : Direction} (h : dirIdx d₁ = dirIdx d₂) : d₁ = d₂ := by
  cases d₁ <;> cases d₂ <;> simp [dirIdx] at h ⊢

theorem encodeLaser_lt {width height : Nat} {l : Laser}
    (hx : l.x < width) (hy : l.y < height) :
    encodeLaser width l < width * height * 4 := by
  have h1 : l.y * width + l.x + 1 ≤ height * width := by
    have h2 : (l.y + 1) * width ≤ height * width := Nat.mul_le_mul_right width hy
    have h3 : (l.y + 1) * width = l.y * width + width := by ring
    omega
  have h3 := dirIdx_lt l.direction
  have h4 : (l.y * width + l.x + 1) * 4 ≤ height * width * 4 :=
    Nat.mul_le_mul_right 4 h1
  have h5 : width * height = height * width := Nat.mul_comm width height
  unfold encodeLaser
  omega

theorem encodeLaser_inj {width : Nat} {l₁ l₂ : Laser}
    (h1 : l₁.x < width) (h2 : l₂.x < width)
    (h : encodeLaser width l₁ = encodeLaser width l₂) : l₁ = l₂ := by
  rcases l₁ with ⟨x₁, y₁, d₁⟩
  rcases l₂ with ⟨x₂, y₂, d₂⟩
  simp only [encodeLaser] at h
  simp only at h1 h2 ⊢
  have hd1 := dirIdx_lt d₁
  have hd2 := dirIdx_lt d₂
  have hp : y₁ * width + x₁ = y₂ * width + x₂ := by omega
  have hd : dirIdx d₁ = dirIdx d₂ := by omega
  have hw : 0 < width := Nat.lt_of_le_of_lt (Nat.zero_le _) h1
  have hp' : x₁ + y₁ * width = x₂ + y₂ * width := by omega
  have hxx : x₁ = x₂ := by
    have hmod := congrArg (fun n => n % width) hp'
    simpa [Nat.add_mul_mod_self_right, Nat.mod_eq_of_lt h1, Nat.mod_eq_of_lt h2]
      using hmod
  have hyy : y₁ = y₂ := by
    have hmul : y₁ * width = y₂ * width := by omega
    exact Nat.eq_of_mul_eq_mul_right hw hmul
  subst hxx
  subst hyy
  rw [dirIdx_inj hd]

theorem length_le_of_nodup_inBounds {width height : Nat} {seen : List Laser}
    (hnd : seen.Nodup) (hb : ∀ l ∈ seen, l.x < width ∧ l.y < height) :
    seen.length ≤ width * height * 4 := by
  have hmap : (seen.map (encodeLaser width)).Nodup :=
    hnd.map_on (fun a ha b hb' hab => encodeLaser_inj (hb a ha).1 (hb b hb').1 hab)
  have hsub : (seen.map (encodeLaser width)).toFinset ⊆
      Finset.range (width * height * 4) := by
    intro n hn
    rw [List.mem_toFinset, List.mem_map] at hn
    obtain ⟨l, hl, rfl⟩ := hn
    exact Finset.mem_range.2 (encodeLaser_lt (hb l hl).1 (hb l hl).2)
  have hcard := Finset.card_le_card hsub
  rw [List.toFinset_card_of_nodup hmap, Finset.card_range] at hcard
  simpa using hcard

/-! Lemmas about the marker grid. -/

theorem markCell_length (result : List (List Bool)) (y x : Nat) :
    (markCell result y x).length = result.length := by
  simp [markCell]

theorem markCell_rect {result : List (List Bool)} {w y x : Nat}
    (hr : ∀ row ∈ result, row.length = w) (hy : y < result.length) :
    ∀ row ∈ markCell result y x, row.length = w := by
  intro row hm
  rcases List.mem_or_eq_of_mem_set hm with h | rfl
  · exact hr _ h
  · rw [List.length_set]
    have : result[y]? = some result[y] := List.getElem?_eq_getElem hy
    rw [this]
    exact hr _ (List.getElem_mem hy)

theorem cellAt_markCell_self {result : List (List Bool)} {y x : Nat}
    (hy : y < result.length) (hx : x < (result[y]?.getD []).length) :
    cellAt (markCell result y x) y x = true := by
  unfold cellAt markCell
  rw [List.getElem?_set_self hy]
  simp only [Option.getD_some]
  rw [List.getElem?_set_self hx]
  simp

theorem cellAt_markCell_ne {result : List (List Bool)} {y x y' x' : Nat}
    (h : ¬(y' = y ∧ x' = x)) :
    cellAt (markCell result y x) y' x' = cellAt result y' x' := by
  unfold cellAt markCell
  by_cases hy : y' = y
  · subst hy
    have hx : x' ≠ x := fun hc => h ⟨rfl, hc⟩
    by_cases hlen : y' < result.length
    · rw [List.getElem?_set_self hlen]
      simp only [Option.getD_some]
      rw [List.getElem?_set_ne (Ne.symm hx)]
    · rw [List.set_eq_of_length_le (Nat.le_of_not_lt hlen)]
  · rw [List.getElem?_set_ne (Ne.symm hy)]

theorem cellAt_initResult (grid : List (List Tile)) (y x : Nat) :
    cellAt (initResult grid) y x = false := by
  unfold cellAt initResult
  rw [List.getElem?_map]
  cases grid[y]? with
  | none => simp
  | some row =>
    simp only [Option.map_some', Option.getD_some]
    rw [List.getElem?_map]
    cases row[x]? with
    | none => simp
    | some b => simp

/-! Lemmas about successor cursors and unfolding the loop. -/

theorem mem_nexts_inBounds {grid : List (List Tile)} {width height : Nat} {l c : Laser}
    (hx : l.x < width) (hy : l.y < height)
    (hc : c ∈ nexts grid width height l) : c.x < width ∧ c.y < height := by
  unfold nexts at hc
  rw [List.mem_filterMap] at hc
  obtain ⟨d, _, hstep⟩ := hc
  exact next_tile_some_inBounds (l := { l with direction := d }) hx hy hstep

theorem nexts_length_le (grid : List (List Tile)) (width height : Nat) (l : Laser) :
    (nexts grid width height l).length ≤ 2 :=
  le_trans (List.length_filterMap_le _ _) (new_directions_length_le _ _)

theorem tileAt_eq {grid : List (List Tile)} {y x : Nat} {row : List Tile} {t : Tile}
    (hy : grid[y]? = some row) (hx : row[x]? = some t) : tileAt grid y x = t := by
  unfold tileAt
  rw [hy]
  simp [hx]

theorem fireLoopD_nil (push : List Laser → List Laser → List Laser)
    (grid : List (List Tile)) (width height fuel : Nat)
    (seen : List Laser) (result : List (List Bool)) :
    fireLoopD push grid width height (fuel + 1) [] seen result =
      LoopOut.ok result seen := rfl

theorem fireLoopD_cons_eq (push : List Laser → List Laser → List Laser)
    (grid : List (List Tile)) (width height fuel : Nat)
    (laser : Laser) (rest seen : List Laser) (result : List (List Bool))
    {row : List Tile} {tile : Tile}
    (hrow : grid[laser.y]? = some row) (htile : row[laser.x]? = some tile) :
    fireLoopD push grid width height (fuel + 1) (laser :: rest) seen result =
      if laser ∈ seen then
        fireLoopD push grid width height fuel rest seen
          (markCell result laser.y laser.x)
      else
        fireLoopD push grid width height fuel
          (push rest ((new_directions tile laser.direction).filterMap
            (fun d => next_tile width height { laser with direction := d })))
          (laser :: seen) (markCell result laser.y laser.x) := by
  rw [fireLoopD]
  rw [hrow]
  simp [htile]

/-- Loop invariant: every worklist and visited cursor is in bounds and
reachable, the visited set is duplicate-free and successor-closed modulo the
worklist, the start cursor is scheduled or visited, and the marker grid has
the grid's shape and marks exactly the positions of visited cursors. -/
structure LoopInv (grid : List (List Tile)) (width height : Nat) (start : Laser)
    (q seen : List Laser) (result : List (List Bool)) : Prop where
  q_bounds : ∀ l ∈ q, l.x < width ∧ l.y < height
  q_reach : ∀ l ∈ q, Reaches grid width height start l
  seen_bounds : ∀ l ∈ seen, l.x < width ∧ l.y < height
  seen_reach : ∀ l ∈ seen, Reaches grid width height start l
  seen_nodup : seen.Nodup
  closed : ∀ l ∈ seen, ∀ c ∈ nexts grid width height l, c ∈ seen ∨ c ∈ q
  start_mem : start ∈ seen ∨ start ∈ q
  res_len : result.length = grid.length
  res_rows : ∀ row ∈ result, row.length = width
  res_spec : ∀ x y, cellAt result y x = true ↔ ∃ l ∈ seen, l.x = x ∧ l.y = y

/-- The invariant holds at loop entry. -/
theorem loopInv_init {grid : List (List Tile)} {width height : Nat} {start : Laser}
    (hrect : Rect grid width) (hx : start.x < width) (hy : start.y < height) :
    LoopInv grid width height start [start] [] (initResult grid) where
  q_bounds := by
    intro l hl
    rw [List.mem_singleton] at hl
    subst hl
    exact ⟨hx, hy⟩
  q_reach := by
    intro l hl
    rw [List.mem_singleton] at hl
    subst hl
    exact Reaches.refl
  seen_bounds := by intro l hl; cases hl
  seen_reach := by intro l hl; cases hl
  seen_nodup := List.nodup_nil
  closed := by intro l hl; cases hl
  start_mem := Or.inr (List.mem_singleton.2 rfl)
  res_len := by simp [initResult]
  res_rows := by
    intro row hrow
    unfold initResult at hrow
    rw [List.mem_map] at hrow
    obtain ⟨line, hline, rfl⟩ := hrow
    simpa using hrect line hline
  res_spec := by
    intro x y
    rw [cellAt_initResult]
    simp

/-- One iteration of the loop preserves the invariant and strictly decreases
the measure; iterated, the loop always finishes with an empty worklist. -/
theorem fireLoopD_run (push : List Laser → List Laser → List Laser)
    (hpush : ∀ a b l, l ∈ push a b ↔ l ∈ a ∨ l ∈ b)
    (hplen : ∀ a b, (push a b).length = a.length + b.length)
    {grid : List (List Tile)} {width height : Nat} {start : Laser}
    (hrect : Rect grid width) (hh : grid.length = height) :
    ∀ fuel q seen result, LoopInv grid width height start q seen result →
      3 * (width * height * 4 - seen.length) + q.length < fuel →
      ∃ r s, fireLoopD push grid width height fuel q seen result = LoopOut.ok r s ∧
        LoopInv grid width height start [] s r := by
  intro fuel
  induction fuel with
  | zero => intro q seen result _ hfuel; omega
  | succ n ih =>
    intro q seen result hinv hfuel
    match q with
    | [] => exact ⟨result, seen, fireLoopD_nil push grid width height n seen result, hinv⟩
    | laser :: rest =>
      have hb := hinv.q_bounds laser (List.mem_cons_self _ _)
      have hy' : laser.y < grid.length := by rw [hh]; exact hb.2
      have hrow : grid[laser.y]? = some grid[laser.y] := List.getElem?_eq_getElem hy'
      have hrlen : (grid[laser.y]).length = width :=
        hrect _ (List.getElem_mem hy')
      have hx' : laser.x < (grid[laser.y]).length := by rw [hrlen]; exact hb.1
      have htile : (grid[laser.y])[laser.x]? = some (grid[laser.y])[laser.x] :=
        List.getElem?_eq_getElem hx'
      have htileAt : tileAt grid laser.y laser.x = (grid[laser.y])[laser.x] :=
        tileAt_eq hrow htile
      have hnexts : (new_directions ((grid[laser.y])[laser.x]) laser.direction).filterMap
          (fun d => next_tile width height { laser with direction := d }) =
          nexts grid width height laser := by
        unfold nexts
        rw [htileAt]
      have hylen : laser.y < result.length := by rw [hinv.res_len]; exact hy'
      have hxlen : laser.x < (result[laser.y]?.getD []).length := by
        rw [List.getElem?_eq_getElem hylen]
        simp only [Option.getD_some]
        rw [hinv.res_rows _ (List.getElem_mem hylen)]
        exact hb.1
      have hmark_len : (markCell result laser.y laser.x).length = grid.length := by
        rw [markCell_length]; exact hinv.res_len
      have hmark_rows : ∀ row ∈ markCell result laser.y laser.x, row.length = width :=
        markCell_rect hinv.res_rows hylen
      rw [fireLoopD_cons_eq push grid width height n laser rest seen result hrow htile]
      by_cases hseen : laser ∈ seen
      · rw [if_pos hseen]
        have hspec : ∀ x y, cellAt (markCell result laser.y laser.x) y x = true ↔
            ∃ l ∈ seen, l.x = x ∧ l.y = y := by
          intro x y
          by_cases hpos : y = laser.y ∧ x = laser.x
          · obtain ⟨hpy, hpx⟩ := hpos
            subst hpy; subst hpx
            rw [cellAt_markCell_self hylen hxlen]
            simp only [true_iff]
            exact ⟨laser, hseen, rfl, rfl⟩
          · rw [cellAt_markCell_ne hpos]
            exact hinv.res_spec x y
        have hinv' : LoopInv grid width height start rest seen
            (markCell result laser.y laser.x) :=
          { q_bounds := fun l hl => hinv.q_bounds l (List.mem_cons_of_mem _ hl)
            q_reach := fun l hl => hinv.q_reach l (List.mem_cons_of_mem _ hl)
            seen_bounds := hinv.seen_bounds
            seen_reach := hinv.seen_reach
            seen_nodup := hinv.seen_nodup
            closed := by
              intro l hl c hc
              rcases hinv.closed l hl c hc with h | h
              · exact Or.inl h
              · rcases List.mem_cons.1 h with rfl | h'
                · exact Or.inl hseen
                · exact Or.inr h'
            start_mem := by
              rcases hinv.start_mem with h | h
              · exact Or.inl h
              · rcases List.mem_cons.1 h with rfl | h'
                · exact Or.inl hseen
                · exact Or.inr h'
            res_len := hmark_len
            res_rows := hmark_rows
            res_spec := hspec }
        apply ih rest seen (markCell result laser.y laser.x) hinv'
        simp only [List.length_cons] at hfuel
        omega
      · rw [if_neg hseen]
        rw [hnexts]
        have hseen_nodup' : (laser :: seen).Nodup :=
          List.nodup_cons.2 ⟨hseen, hinv.seen_nodup⟩
        have hseen_bounds' : ∀ l ∈ laser :: seen, l.x < width ∧ l.y < height := by
          intro l hl
          rcases List.mem_cons.1 hl with rfl | h'
          · exact hb
          · exact hinv.seen_bounds l h'
        have hslen : (laser :: seen).length ≤ width * height * 4 :=
          length_le_of_nodup_inBounds hseen_nodup' hseen_bounds'
        have hreach_laser : Reaches grid width height start laser :=
          hinv.q_reach laser (List.mem_cons_self _ _)
        have hspec : ∀ x y, cellAt (markCell result laser.y laser.x) y x = true ↔
            ∃ l ∈ laser :: seen, l.x = x ∧ l.y = y := by
          intro x y
          by_cases hpos : y = laser.y ∧ x = laser.x
          · obtain ⟨hpy, hpx⟩ := hpos
            subst hpy; subst hpx
            rw [cellAt_markCell_self hylen hxlen]
            simp only [true_iff]
            exact ⟨laser, List.mem_cons_self _ _, rfl, rfl⟩
          · rw [cellAt_markCell_ne hpos]
            rw [hinv.res_spec x y]
            constructor
            · rintro ⟨l, hl, hlx, hly⟩
              exact ⟨l, List.mem_cons_of_mem _ hl, hlx, hly⟩
            · rintro ⟨l, hl, hlx, hly⟩
              rcases List.mem_cons.1 hl with rfl | h'
              · exact absurd ⟨hly.symm, hlx.symm⟩ hpos
              · exact ⟨l, h', hlx, hly⟩
        have hinv' : LoopInv grid width height start
            (push rest (nexts grid width height laser)) (laser :: seen)
            (markCell result laser.y laser.x) :=
          { q_bounds := by
              intro l hl
              rcases (hpush _ _ l).1 hl with h | h
              · exact hinv.q_bounds l (List.mem_cons_of_mem _ h)
              · exact mem_nexts_inBounds hb.1 hb.2 h
            q_reach := by
              intro l hl
              rcases (hpush _ _ l).1 hl with h | h
              · exact hinv.q_reach l (List.mem_cons_of_mem _ h)
              · exact Reaches.step hreach_laser h
            seen_bounds := hseen_bounds'
            seen_reach := by
              intro l hl
              rcases List.mem_cons.1 hl with rfl | h'
              · exact hreach_laser
              · exact hinv.seen_reach l h'
            seen_nodup := hseen_nodup'
            closed := by
              intro l hl c hc
              rcases List.mem_cons.1 hl with rfl | h'
              · exact Or.inr ((hpush _ _ c).2 (Or.inr hc))
              · rcases hinv.closed l h' c hc with h | h
                · exact Or.inl (List.mem_cons_of_mem _ h)
                · rcases List.mem_cons.1 h with rfl | h''
                  · exact Or.inl (List.mem_cons_self _ _)
                  · exact Or.inr ((hpush _ _ c).2 (Or.inl h''))
            start_mem := by
              rcases hinv.start_mem with h | h
              · exact Or.inl (List.mem_cons_of_mem _ h)
              · rcases List.mem_cons.1 h with rfl | h'
                · exact Or.inl (List.mem_cons_self _ _)
                · exact Or.inr ((hpush _ _ start).2 (Or.inl h'))
            res_len := hmark_len
            res_rows := hmark_rows
            res_spec := hspec }
        apply ih _ _ _ hinv'
        have hqlen : (push rest (nexts grid width height laser)).length =
            rest.length + (nexts grid width height laser).length := hplen _ _
        have hnlen := nexts_length_le grid width height laser
        have hclen : (laser :: seen).length = seen.length + 1 := List.length_cons _ _
        have hclen2 : (laser :: rest).length = rest.length + 1 := List.length_cons _ _
        rw [hclen] at hslen
        rw [hclen2] at hfuel
        rw [hclen, hqlen]
        omega

/-- A visited set that contains the start and is successor-closed contains
every reachable cursor. -/
theorem reaches_mem_seen {grid : List (List Tile)} {width height : Nat}
    {start : Laser} {seen : List Laser} (hstart : start ∈ seen)
    (hclosed : ∀ l ∈ seen, ∀ c ∈ nexts grid width height l, c ∈ seen) :
    ∀ l, Reaches grid width height start l → l ∈ seen := by
  intro l hl
  induction hl with
  | refl => exact hstart
  | step hb hc ih => exact hclosed _ ih _ hc

/-- Every cursor reachable from an in-bounds start is in bounds. -/
theorem reaches_inBounds {grid : List (List Tile)} {width height : Nat}
    {start l : Laser} (hx : start.x < width) (hy : start.y < height)
    (h : Reaches grid width height start l) : l.x < width ∧ l.y < height := by
  induction h with
  | refl => exact ⟨hx, hy⟩
  | step hb hc ih => exact mem_nexts_inBounds ih.1 ih.2 hc

theorem pushFifo_mem : ∀ (a b : List Laser) (l : Laser),
    l ∈ pushFifo a b ↔ l ∈ a ∨ l ∈ b := by
  intro a b l
  simp [pushFifo]

theorem pushFifo_length : ∀ (a b : List Laser),
    (pushFifo a b).length = a.length + b.length := by
  intro a b
  simp [pushFifo]

theorem pushLifo_mem : ∀ (a b : List Laser) (l : Laser),
    l ∈ pushLifo a b ↔ l ∈ a ∨ l ∈ b := by
  intro a b l
  simp [pushLifo, or_comm]

theorem pushLifo_length : ∀ (a b : List Laser),
    (pushLifo a b).length = a.length + b.length := by
  intro a b
  simp [pushLifo, Nat.add_comm]

/-- A full run of the loop, for any scheduling discipline: it finishes with
`ok`, the visited set is bounded by `width × height × 4`, and the marker
grid marks exactly the positions of reachable cursors. -/
theorem fireLoopD_characterize (push : List Laser → List Laser → List Laser)
    (hpush : ∀ a b l, l ∈ push a b ↔ l ∈ a ∨ l ∈ b)
    (hplen : ∀ a b, (push a b).length = a.length + b.length)
    {grid : List (List Tile)} {width : Nat} {start : Laser}
    (hrect : Rect grid width) (hx : start.x < width) (hy : start.y < grid.length) :
    ∃ r s, fireLoopD push grid width grid.length (12 * width * grid.length + 2)
        [start] [] (initResult grid) = LoopOut.ok r s ∧
      r.length = grid.length ∧ (∀ row ∈ r, row.length = width) ∧
      s.length ≤ width * grid.length * 4 ∧
      (∀ x y, cellAt r y x = true ↔
        ∃ l, Reaches grid width grid.length start l ∧ l.x = x ∧ l.y = y) := by
  have hfuel : 3 * (width * grid.length * 4 - ([] : List Laser).length) +
      ([start] : List Laser).length < 12 * width * grid.length + 2 := by
    have h2 : 3 * (width * grid.length * 4) = 12 * width * grid.length := by ring
    simp only [List.length_nil, List.length_singleton, Nat.sub_zero]
    omega
  obtain ⟨r, s, heq, hinv⟩ := fireLoopD_run push hpush hplen hrect rfl
    (12 * width * grid.length + 2) [start] [] (initResult grid)
    (loopInv_init hrect hx hy) hfuel
  have hstart : start ∈ s := by
    rcases hinv.start_mem with h | h
    · exact h
    · cases h
  have hclosed : ∀ l ∈ s, ∀ c ∈ nexts grid width grid.length l, c ∈ s := by
    intro l hl c hc
    rcases hinv.closed l hl c hc with h | h
    · exact h
    · cases h
  refine ⟨r, s, heq, hinv.res_len, hinv.res_rows,
    length_le_of_nodup_inBounds hinv.seen_nodup hinv.seen_bounds, ?_⟩
  intro x y
  rw [hinv.res_spec x y]
  constructor
  · rintro ⟨l, hl, hlx, hly⟩
    exact ⟨l, hinv.seen_reach l hl, hlx, hly⟩
  · rintro ⟨l, hl, hlx, hly⟩
    exact ⟨l, reaches_mem_seen hstart hclosed l hl, hlx, hly⟩

theorem bool_eq_of_iff {a b : Bool} (h : (a = true) ↔ (b = true)) : a = b := by
  cases a <;> cases b <;> simp_all

/-- Two marker grids of the same rectangular shape with the same cells are
equal. -/
theorem result_ext {r₁ r₂ : List (List Bool)} {width : Nat}
    (hlen : r₁.length = r₂.length)
    (hr₁ : ∀ row ∈ r₁, row.length = width) (hr₂ : ∀ row ∈ r₂, row.length = width)
    (hcell : ∀ x y, cellAt r₁ y x = cellAt r₂ y x) : r₁ = r₂ := by
  apply List.ext_getElem hlen
  intro y hy₁ hy₂
  apply List.ext_getElem
  · rw [hr₁ _ (List.getElem_mem hy₁), hr₂ _ (List.getElem_mem hy₂)]
  · intro x hx₁ hx₂
    have h := hcell x y
    unfold cellAt at h
    rw [List.getElem?_eq_getElem hy₁, List.getElem?_eq_getElem hy₂] at h
    simp only [Option.getD_some] at h
    rw [List.getElem?_eq_getElem hx₁, List.getElem?_eq_getElem hx₂] at h
    simpa using h

/-- Unfolding `fire_laser` when the loop finishes. -/
theorem fire_laser_eq_of_ok {grid : List (List Tile)} {width : Nat} {start : Laser}
    {r : List (List Bool)} {s : List Laser}
    (hrect : Rect grid width) (h0 : 0 < grid.length)
    (heq : fireLoop grid width grid.length (12 * width * grid.length + 2)
      [start] [] (initResult grid) = LoopOut.ok r s) :
    fire_laser grid start = some (countEnergized r) := by
  cases grid with
  | nil => simp at h0
  | cons row0 grest =>
    have hw : row0.length = width := hrect row0 (by simp)
    unfold fire_laser
    simp only [List.head?_cons]
    rw [hw]
    rw [heq]

/-- `fire_laser` on a rectangular nonempty grid with an in-bounds start:
the loop finishes and the returned count is that of the marker grid
characterized by reachability. -/
theorem fire_laser_characterize {grid : List (List Tile)} {width : Nat} {start : Laser}
    (hrect : Rect grid width) (h0 : 0 < grid.length)
    (hx : start.x < width) (hy : start.y < grid.length) :
    ∃ r s, fireLoop grid width grid.length (12 * width * grid.length + 2)
        [start] [] (initResult grid) = LoopOut.ok r s ∧
      fire_laser grid start = some (countEnergized r) ∧
      r.length = grid.length ∧ (∀ row ∈ r, row.length = width) ∧
      (∀ x y, cellAt r y x = true ↔
        ∃ l, Reaches grid width grid.length start l ∧ l.x = x ∧ l.y = y) := by
  obtain ⟨r, s, heq, hrl, hrr, _, hspec⟩ :=
    fireLoopD_characterize pushFifo pushFifo_mem pushFifo_length hrect hx hy
  exact ⟨r, s, heq, fire_laser_eq_of_ok hrect h0 heq, hrl, hrr, hspec⟩

/-- `next_tile` fails exactly when the step would leave the grid. -/
theorem next_tile_none_iff {width height : Nat} {l : Laser} :
    next_tile width height l = none ↔
      ((l.direction = Direction.Up ∧ l.y = 0) ∨
       (l.direction = Direction.Down ∧ height ≤ l.y + 1) ∨
       (l.direction = Direction.Left ∧ l.x = 0) ∨
       (l.direction = Direction.Right ∧ width ≤ l.x + 1)) := by
  rcases l with ⟨x, y, d⟩
  cases d <;> simp [next_tile]

/-- As long as every worklist cursor is in bounds, the loop never reaches
the out-of-bounds abort, for any fuel and marker grid. -/
theorem fireLoopD_no_oob (push : List Laser → List Laser → List Laser)
    (hpush : ∀ a b l, l ∈ push a b ↔ l ∈ a ∨ l ∈ b)
    {grid : List (List Tile)} {width height : Nat}
    (hrect : Rect grid width) (hh : grid.length = height) :
    ∀ fuel q seen result, (∀ l ∈ q, l.x < width ∧ l.y < height) →
      fireLoopD push grid width height fuel q seen result ≠ LoopOut.oobPanic := by
  intro fuel
  induction fuel with
  | zero => intro q seen result _; simp [fireLoopD]
  | succ n ih =>
    intro q seen result hq
    match q with
    | [] => rw [fireLoopD_nil]; simp
    | laser :: rest =>
      have hb := hq laser (List.mem_cons_self _ _)
      have hy' : laser.y < grid.length := by rw [hh]; exact hb.2
      have hrow : grid[laser.y]? = some grid[laser.y] := List.getElem?_eq_getElem hy'
      have hx' : laser.x < (grid[laser.y]).length := by
        rw [hrect _ (List.getElem_mem hy')]; exact hb.1
      have htile : (grid[laser.y])[laser.x]? = some (grid[laser.y])[laser.x] :=
        List.getElem?_eq_getElem hx'
      rw [fireLoopD_cons_eq push grid width height n laser rest seen result hrow htile]
      by_cases hseen : laser ∈ seen
      · rw [if_pos hseen]
        exact ih rest seen _ (fun l hl => hq l (List.mem_cons_of_mem _ hl))
      · rw [if_neg hseen]
        apply ih
        intro l hl
        rcases (hpush _ _ l).1 hl with h | h
        · exact hq l (List.mem_cons_of_mem _ h)
        · rw [List.mem_filterMap] at h
          obtain ⟨d, _, hstep⟩ := h
          exact next_tile_some_inBounds (l := { laser with direction := d })
            hb.1 hb.2 hstep

theorem cellAt_cons_zero (row : List Bool) (rest : List (List Bool)) (x : Nat) :
    cellAt (row :: rest) 0 x = (row[x]?).getD false := by
  unfold cellAt
  simp

theorem cellAt_cons_succ (row : List Bool) (rest : List (List Bool)) (y x : Nat) :
    cellAt (row :: rest) (y + 1) x = cellAt rest y x := by
  unfold cellAt
  simp

theorem countEnergized_cons (row : List Bool) (rest : List (List Bool)) :
    countEnergized (row :: rest) =
      (row.filter (fun e => e)).length + countEnergized rest := by
  unfold countEnergized
  simp [List.filter_append]

theorem filter_length_all_false {row : List Bool}
    (hspec : ∀ x : Nat, (row[x]?).getD false ≠ true) :
    (row.filter (fun e => e)).length = 0 := by
  have hnil : row.filter (fun e => e) = [] := by
    rw [List.filter_eq_nil_iff]
    intro a ha
    rw [List.mem_iff_getElem] at ha
    obtain ⟨i, hi, rfl⟩ := ha
    intro hA
    apply hspec i
    rw [List.getElem?_eq_getElem hi]
    simpa using hA
  rw [hnil]
  rfl

theorem filter_length_one {row : List Bool} {x₀ : Nat}
    (hx : x₀ < row.length)
    (hspec : ∀ x : Nat, ((row[x]?).getD false = true) ↔ x = x₀) :
    (row.filter (fun e => e)).length = 1 := by
  induction row generalizing x₀ with
  | nil => simp at hx
  | cons b t ih =>
    cases x₀ with
    | zero =>
      have hb : b = true := by
        have h := (hspec 0).2 rfl
        simpa using h
      subst hb
      have htfilter : (t.filter (fun e => e)).length = 0 := by
        apply filter_length_all_false
        intro x hcontra
        have h := (hspec (x + 1)).1 (by simpa using hcontra)
        omega
      rw [List.filter_cons_of_pos (by rfl), List.length_cons, htfilter]
    | succ k =>
      have hb : b = false := by
        cases b with
        | false => rfl
        | true =>
          have hk := (hspec 0).1 (by simp)
          exact absurd hk (by omega)
      subst hb
      have hx' : k < t.length := by simpa using hx
      have hspec' : ∀ x : Nat, ((t[x]?).getD false = true) ↔ x = k := by
        intro x
        have h := hspec (x + 1)
        simpa using h
      rw [List.filter_cons]
      simpa using ih hx' hspec'

theorem countEnergized_all_false {r : List (List Bool)}
    (hspec : ∀ x y : Nat, cellAt r y x ≠ true) : countEnergized r = 0 := by
  induction r with
  | nil => rfl
  | cons row rest ih =>
    rw [countEnergized_cons]
    rw [filter_length_all_false (fun x => by
      have h := hspec x 0
      rwa [cellAt_cons_zero] at h)]
    rw [ih (fun x y => by
      have h := hspec x (y + 1)
      rwa [cellAt_cons_succ] at h)]

/-- A marker grid whose only marked cell is `(x₀, y₀)` counts exactly 1. -/
theorem countEnergized_single {r : List (List Bool)} {width x₀ y₀ : Nat}
    (hrows : ∀ row ∈ r, row.length = width)
    (hy : y₀ < r.length) (hx : x₀ < width)
    (hspec : ∀ x y : Nat, cellAt r y x = true ↔ (x = x₀ ∧ y = y₀)) :
    countEnergized r = 1 := by
  induction r generalizing y₀ with
  | nil => simp at hy
  | cons row rest ih =>
    rw [countEnergized_cons]
    cases y₀ with
    | zero =>
      have h1 : (row.filter (fun e => e)).length = 1 := by
        apply @filter_length_one _ x₀
        · rw [hrows row (List.mem_cons_self _ _)]
          exact hx
        · intro x
          have h := hspec x 0
          rw [cellAt_cons_zero] at h
          simpa using h
      have h0 : countEnergized rest = 0 := by
        apply countEnergized_all_false
        intro x y
        have h := hspec x (y + 1)
        rw [cellAt_cons_succ] at h
        intro hc
        obtain ⟨-, h2⟩ := h.1 hc
        omega
      omega
    | succ k =>
      have h0 : (row.filter (fun e => e)).length = 0 := by
        apply filter_length_all_false
        intro x
        have h := hspec x 0
        rw [cellAt_cons_zero] at h
        intro hc
        obtain ⟨-, h2⟩ := h.1 hc
        omega
      have h1 : countEnergized rest = 1 := by
        apply ih (fun r hr => hrows r (List.mem_cons_of_mem _ hr)) (by simpa using hy)
        intro x y
        have h := hspec x (y + 1)
        rw [cellAt_cons_succ] at h
        simpa using h
      omega

/-- A marked cell forces a positive count. -/
theorem countEnergized_pos {r : List (List Bool)} {y x : Nat}
    (h : cellAt r y x = true) : 1 ≤ countEnergized r := by
  unfold cellAt at h
  cases hy : r[y]? with
  | none => rw [hy] at h; simp at h
  | some row =>
    rw [hy] at h
    simp only [Option.getD_some] at h
    cases hx : row[x]? with
    | none => rw [hx] at h; simp at h
    | some b =>
      rw [hx] at h
      simp only [Option.getD_some] at h
      subst h
      obtain ⟨hylt, hyeq⟩ := List.getElem?_eq_some.1 hy
      obtain ⟨hxlt, hxeq⟩ := List.getElem?_eq_some.1 hx
      have hrow : row ∈ r := hyeq ▸ List.getElem_mem hylt
      have htrue : (true : Bool) ∈ row := hxeq ▸ List.getElem_mem hxlt
      have hmem : (true : Bool) ∈ r.flatten := List.mem_flatten.2 ⟨row, hrow, htrue⟩
      have hfil : (true : Bool) ∈ r.flatten.filter (fun e => e) :=
        List.mem_filter.2 ⟨hmem, rfl⟩
      have hne : r.flatten.filter (fun e => e) ≠ [] := List.ne_nil_of_mem hfil
      have hpos := List.length_pos.2 hne
      unfold countEnergized
      omega

/-- A single failing element aborts the whole effectful map. -/
theorem mapOption_eq_none_of_mem {f : α → Option β} {l : List α} {a : α}
    (ha : a ∈ l) (hf : f a = none) : mapOption f l = none := by
  induction l with
  | nil => cases ha
  | cons b t ih =>
    rcases List.mem_cons.1 ha with rfl | h'
    · unfold mapOption
      rw [hf]
    · unfold mapOption
      rw [ih h']
      cases f b <;> rfl

/-- If the start cursor has no successors, the only reachable cursor is the
start itself. -/
theorem reaches_eq_of_nexts_nil {grid : List (List Tile)} {width height : Nat}
    {start l : Laser} (hnil : nexts grid width height start = [])
    (h : Reaches grid width height start l) : l = start := by
  induction h with
  | refl => rfl
  | step hb hc ih =>
    subst ih
    rw [hnil] at hc
    cases hc

/-- Unfolding `fire_laser_lifo` when the loop finishes. -/
theorem fire_laser_lifo_eq_of_ok {grid : List (List Tile)} {width : Nat} {start : Laser}
    {r : List (List Bool)} {s : List Laser}
    (hrect : Rect grid width) (h0 : 0 < grid.length)
    (heq : fireLoopD pushLifo grid width grid.length (12 * width * grid.length + 2)
      [start] [] (initResult grid) = LoopOut.ok r s) :
    fire_laser_lifo grid start = some (countEnergized r) := by
  cases grid with
  | nil => simp at h0
  | cons row0 grest =>
    have hw : row0.length = width := hrect row0 (by simp)
    unfold fire_laser_lifo
    simp only [List.head?_cons]
    rw [hw]
    rw [heq]

/-- C1: the direction-transition rule is exactly the finite table: an empty
tile passes the direction through; the forward mirror maps Up↦Right,
Right↦Up, Down↦Left, Left↦Down; the back mirror maps Up↦Left, Left↦Up,
Down↦Right, Right↦Down; the horizontal splitter splits Up/Down into
{Left, Right} and passes Left/Right through; the vertical splitter splits
Left/Right into {Up, Down} and passes Up/Down through. -/
theorem new_directions_table :
    (∀ d, new_directions Tile.Empty d = [d]) ∧
    new_directions Tile.FMirror Direction.Up = [Direction.Right] ∧
    new_directions Tile.FMirror Direction.Right = [Direction.Up] ∧
    new_directions Tile.FMirror Direction.Down = [Direction.Left] ∧
    new_directions Tile.FMirror Direction.Left = [Direction.Down] ∧
    new_directions Tile.BMirror Direction.Up = [Direction.Left] ∧
    new_directions Tile.BMirror Direction.Left = [Direction.Up] ∧
    new_directions Tile.BMirror Direction.Down = [Direction.Right] ∧
    new_directions Tile.BMirror Direction.Right = [Direction.Down] ∧
    new_directions Tile.HSplitter Direction.Up = [Direction.Left, Direction.Right] ∧
    new_directions Tile.HSplitter Direction.Down = [Direction.Left, Direction.Right] ∧
    new_directions Tile.HSplitter Direction.Left = [Direction.Left] ∧
    new_directions Tile.HSplitter Direction.Right = [Direction.Right] ∧
    new_directions Tile.VSplitter Direction.Left = [Direction.Up, Direction.Down] ∧
    new_directions Tile.VSplitter Direction.Right = [Direction.Up, Direction.Down] ∧
    new_directions Tile.VSplitter Direction.Up = [Direction.Up] ∧
    new_directions Tile.VSplitter Direction.Down = [Direction.Down] := by
  decide

/-- C3: on every rectangular nonempty grid, for every in-bounds start
cursor, the traversal loop terminates: with the fuel `fire_laser` supplies
(12·width·height+2) the worklist empties and the loop returns `ok`; the
visited set is duplicate-free (each cursor state expanded at most once) and
bounded by width·height·4 states; hence `fire_laser` returns a count. -/
theorem fire_laser_terminates {grid : List (List Tile)} {width : Nat} {start : Laser}
    (hrect : Rect grid width) (h0 : 0 < grid.length)
    (hx : start.x < width) (hy : start.y < grid.length) :
    ∃ r s, fireLoop grid width grid.length (12 * width * grid.length + 2)
        [start] [] (initResult grid) = LoopOut.ok r s ∧
      s.Nodup ∧ s.length ≤ width * grid.length * 4 ∧
      ∃ n, fire_laser grid start = some n := by
  have hfuel : 3 * (width * grid.length * 4 - ([] : List Laser).length) +
      ([start] : List Laser).length < 12 * width * grid.length + 2 := by
    have h2 : 3 * (width * grid.length * 4) = 12 * width * grid.length := by ring
    simp only [List.length_nil, List.length_singleton, Nat.sub_zero]
    omega
  obtain ⟨r, s, heq, hinv⟩ := fireLoopD_run pushFifo pushFifo_mem pushFifo_length
    hrect rfl (12 * width * grid.length + 2) [start] [] (initResult grid)
    (loopInv_init hrect hx hy) hfuel
  exact ⟨r, s, heq, hinv.seen_nodup,
    length_le_of_nodup_inBounds hinv.seen_nodup hinv.seen_bounds,
    countEnergized r, fire_laser_eq_of_ok hrect h0 heq⟩

theorem fire_laser_terminates_witness :
    ∃ r s, fireLoop [[Tile.Empty]] 1 ([[Tile.Empty]] : List (List Tile)).length
        (12 * 1 * ([[Tile.Empty]] : List (List Tile)).length + 2)
        [{ x := 0, y := 0, direction := Direction.Right }] []
        (initResult [[Tile.Empty]]) = LoopOut.ok r s ∧
      s.Nodup ∧ s.length ≤ 1 * ([[Tile.Empty]] : List (List Tile)).length * 4 ∧
      ∃ n, fire_laser [[Tile.Empty]]
        { x := 0, y := 0, direction := Direction.Right } = some n :=
  @fire_laser_terminates [[Tile.Empty]] 1 { x := 0, y := 0, direction := Direction.Right }
    (by decide) (by decide) (by decide) (by decide)

/-- C4: stepping is bounds-checked and never wraps or clamps: a successful
`next_tile` step from an in-bounds cursor stays in bounds, `next_tile`
returns `none` exactly when the step would leave the grid, and for every
fuel and marker grid the traversal loop started from an in-bounds cursor
never reaches the out-of-bounds abort — all its grid and marker indexing is
in bounds. -/
theorem fire_laser_in_bounds {grid : List (List Tile)} {width : Nat} {start : Laser}
    (hrect : Rect grid width) (hx : start.x < width) (hy : start.y < grid.length) :
    (∀ l l' : Laser, l.x < width → l.y < grid.length →
      next_tile width grid.length l = some l' → l'.x < width ∧ l'.y < grid.length) ∧
    (∀ l : Laser, next_tile width grid.length l = none ↔
      ((l.direction = Direction.Up ∧ l.y = 0) ∨
       (l.direction = Direction.Down ∧ grid.length ≤ l.y + 1) ∨
       (l.direction = Direction.Left ∧ l.x = 0) ∨
       (l.direction = Direction.Right ∧ width ≤ l.x + 1))) ∧
    (∀ fuel result, fireLoop grid width grid.length fuel [start] [] result ≠
      LoopOut.oobPanic) := by
  refine ⟨fun l l' ha hb h => next_tile_some_inBounds ha hb h,
    fun l => next_tile_none_iff, ?_⟩
  intro fuel result
  apply fireLoopD_no_oob pushFifo pushFifo_mem hrect rfl
  intro l hl
  rw [List.mem_singleton] at hl
  subst hl
  exact ⟨hx, hy⟩

theorem fire_laser_in_bounds_witness :
    fireLoop [[Tile.Empty]] 1 ([[Tile.Empty]] : List (List Tile)).length 5
      [{ x := 0, y := 0, direction := Direction.Right }] [] [[false]] ≠
      LoopOut.oobPanic :=
  (@fire_laser_in_bounds [[Tile.Empty]] 1 { x := 0, y := 0, direction := Direction.Right }
    (by decide) (by decide) (by decide)).2.2 5 [[false]]

/-- C5: the worklist discipline does not affect the result: the FIFO loop
(the source's) and the LIFO loop, run on the same rectangular grid from the
same in-bounds start, finish with the same marker grid — the same set of
energized positions — and hence `fire_laser` and its LIFO variant return
the same energized count. -/
theorem fifo_lifo_equiv {grid : List (List Tile)} {width : Nat} {start : Laser}
    (hrect : Rect grid width) (h0 : 0 < grid.length)
    (hx : start.x < width) (hy : start.y < grid.length) :
    (∃ r s₁ s₂,
      fireLoopD pushFifo grid width grid.length (12 * width * grid.length + 2)
        [start] [] (initResult grid) = LoopOut.ok r s₁ ∧
      fireLoopD pushLifo grid width grid.length (12 * width * grid.length + 2)
        [start] [] (initResult grid) = LoopOut.ok r s₂) ∧
    fire_laser grid start = fire_laser_lifo grid start := by
  obtain ⟨r₁, s₁, heq₁, hrl₁, hrr₁, _, hspec₁⟩ :=
    fireLoopD_characterize pushFifo pushFifo_mem pushFifo_length hrect hx hy
  obtain ⟨r₂, s₂, heq₂, hrl₂, hrr₂, _, hspec₂⟩ :=
    fireLoopD_characterize pushLifo pushLifo_mem pushLifo_length hrect hx hy
  have hr : r₁ = r₂ := by
    apply @result_ext _ _ width (by rw [hrl₁, hrl₂]) hrr₁ hrr₂
    intro x y
    apply bool_eq_of_iff
    rw [hspec₁ x y, hspec₂ x y]
  subst hr
  refine ⟨⟨r₁, s₁, s₂, heq₁, heq₂⟩, ?_⟩
  rw [fire_laser_eq_of_ok hrect h0 heq₁, fire_laser_lifo_eq_of_ok hrect h0 heq₂]

theorem fifo_lifo_equiv_witness :
    fire_laser [[Tile.Empty, Tile.FMirror]]
        { x := 0, y := 0, direction := Direction.Right } =
      fire_laser_lifo [[Tile.Empty, Tile.FMirror]]
        { x := 0, y := 0, direction := Direction.Right } :=
  (@fifo_lifo_equiv [[Tile.Empty, Tile.FMirror]] 2
    { x := 0, y := 0, direction := Direction.Right }
    (by decide) (by decide) (by decide) (by decide)).2

/-- C6 counterexample: a start cursor on the top edge pointing Up (outward,
its own step would leave the grid) sitting on a horizontal splitter splits
into {Left, Right} and propagates along the row: the energized count is 3,
not 1 as claimed. -/
theorem edge_outward_counterexample :
    next_tile 3 1 { x := 1, y := 0, direction := Direction.Up } = none ∧
    fire_laser [[Tile.Empty, Tile.HSplitter, Tile.Empty]]
      { x := 1, y := 0, direction := Direction.Up } = some 3 ∧
    (3 : Nat) ≠ 1 := by
  decide

/-- C6 amended: for every rectangular nonempty grid and in-bounds start
cursor all of whose outgoing cursors are discarded (every direction produced
by the start tile steps out of bounds, so the start has no successors), the
traversal returns an energized count of exactly 1 — only the starting
cell. -/
theorem edge_outward_amended {grid : List (List Tile)} {width : Nat} {start : Laser}
    (hrect : Rect grid width) (h0 : 0 < grid.length)
    (hx : start.x < width) (hy : start.y < grid.length)
    (hout : nexts grid width grid.length start = []) :
    fire_laser grid start = some 1 := by
  obtain ⟨r, s, heq, hfl, hrl, hrr, hspec⟩ := fire_laser_characterize hrect h0 hx hy
  rw [hfl]
  congr 1
  apply @countEnergized_single _ width start.x start.y hrr (by rw [hrl]; exact hy) hx
  intro x y
  rw [hspec x y]
  constructor
  · rintro ⟨l, hl, hlx, hly⟩
    have heqs := reaches_eq_of_nexts_nil hout hl
    subst heqs
    exact ⟨hlx.symm, hly.symm⟩
  · rintro ⟨rfl, rfl⟩
    exact ⟨start, Reaches.refl, rfl, rfl⟩

theorem edge_outward_amended_witness :
    fire_laser [[Tile.Empty]] { x := 0, y := 0, direction := Direction.Right } =
      some 1 :=
  @edge_outward_amended [[Tile.Empty]] 1 { x := 0, y := 0, direction := Direction.Right }
    (by decide) (by decide) (by decide) (by decide) (by decide)

/-- C7: the tile classifier is total on the five-symbol alphabet
`. / \ - |`, mapping each symbol to its tile variant, and fails on any
other character; one bad character anywhere in the input aborts the whole
parse — no partial grid is produced. -/
theorem tile_classifier_total :
    (tileFromChar '.' = some Tile.Empty ∧
     tileFromChar '/' = some Tile.FMirror ∧
     tileFromChar '\\' = some Tile.BMirror ∧
     tileFromChar '-' = some Tile.HSplitter ∧
     tileFromChar '|' = some Tile.VSplitter) ∧
    (∀ c : Char, c ≠ '.' → c ≠ '/' → c ≠ '\\' → c ≠ '-' → c ≠ '|' →
      tileFromChar c = none) ∧
    (∀ (s : String) (line : List Char) (c : Char),
      line ∈ strLines s → c ∈ line → tileFromChar c = none →
      parse_input s = none) := by
  refine ⟨by decide, ?_, ?_⟩
  · intro c h1 h2 h3 h4 h5
    simp [tileFromChar, h1, h2, h3, h4, h5]
  · intro s line c hline hc hnone
    unfold parse_input
    exact mapOption_eq_none_of_mem hline (mapOption_eq_none_of_mem hc hnone)

theorem tile_classifier_total_witness :
    tileFromChar 'a' = none ∧ parse_input "a#" = none := by
  refine ⟨tile_classifier_total.2.1 'a' (by decide) (by decide) (by decide)
    (by decide) (by decide), ?_⟩
  exact tile_classifier_total.2.2 "a#" ['a', '#'] '#' (by decide) (by decide)
    (tile_classifier_total.2.1 '#' (by decide) (by decide) (by decide)
      (by decide) (by decide))

/-- C8 counterexample: the input consisting of the lines `.` and `..` has
inconsistent line lengths, yet the program does not fail fast: the width is
taken from the first line, the longer second line is silently truncated,
and `part1` produces a result. -/
theorem ragged_input_counterexample :
    strLines ".\n.." = [['.'], ['.', '.']] ∧
    (['.'] : List Char).length ≠ (['.', '.'] : List Char).length ∧
    part1 ".\n.." = some 1 := by
  decide

/-- C8 amended: on empty input the program does fail with an unrecoverable
error at grid-shape determination (indexing row 0 of an empty grid), but
inconsistent line lengths are not detected there: an input whose later
lines are longer than the first is silently truncated to the first line's
width and produces a result. -/
theorem input_error_amended :
    part1 "" = none ∧ part2 "" = none ∧ part1 ".\n.." = some 1 := by
  decide

/-- C10: the transition table never absorbs a beam (every (tile, direction)
pair yields at least one outgoing direction) and splits into at most two
(exactly two precisely when a splitter is hit perpendicular to its axis);
consequently the energized count of a traversal from any in-bounds start on
a rectangular nonempty grid is at least 1. -/
theorem beams_not_absorbed {grid : List (List Tile)} {width : Nat} {start : Laser}
    (hrect : Rect grid width) (h0 : 0 < grid.length)
    (hx : start.x < width) (hy : start.y < grid.length) :
    (∀ (t : Tile) (d : Direction),
      new_directions t d ≠ [] ∧ (new_directions t d).length ≤ 2 ∧
      ((new_directions t d).length = 2 ↔
        ((t = Tile.HSplitter ∧ (d = Direction.Up ∨ d = Direction.Down)) ∨
         (t = Tile.VSplitter ∧ (d = Direction.Left ∨ d = Direction.Right))))) ∧
    (∃ n, fire_laser grid start = some n ∧ 1 ≤ n) := by
  refine ⟨by decide, ?_⟩
  obtain ⟨r, s, heq, hfl, hrl, hrr, hspec⟩ := fire_laser_characterize hrect h0 hx hy
  refine ⟨countEnergized r, hfl, ?_⟩
  apply countEnergized_pos (y := start.y) (x := start.x)
  rw [hspec start.x start.y]
  exact ⟨start, Reaches.refl, rfl, rfl⟩

theorem beams_not_absorbed_witness :
    ∃ n, fire_laser [[Tile.VSplitter]]
      { x := 0, y := 0, direction := Direction.Right } = some n ∧ 1 ≤ n :=
  (@beams_not_absorbed [[Tile.VSplitter]] 1 { x := 0, y := 0, direction := Direction.Right }
    (by decide) (by decide) (by decide) (by decide)).2

/-- C2: on the 10×10 reference example grid, the fixed-start traversal
(part1: start at the top-left corner pointing Right) returns an energized
count of 46, and the best-of-all-edge-starts search (part2) returns a
maximum energized count of 51. -/
theorem example_counts :
    part1 exampleInput = some 46 ∧ part2 exampleInput = some 51 := by
  constructor <;> (set_option maxRecDepth 1000000 in decide)

/-! Left-right mirror symmetry. -/

theorem reflectDir_reflectDir (d : Direction) : reflectDir (reflectDir d) = d := by
  cases d <;> rfl

theorem reflectTile_reflectTile (t : Tile) : reflectTile (reflectTile t) = t := by
  cases t <;> rfl

theorem reflectLaser_reflectLaser {width : Nat} {l : Laser} (hx : l.x < width) :
    reflectLaser width (reflectLaser width l) = l := by
  rcases l with ⟨x, y, d⟩
  simp only at hx
  simp [reflectLaser, reflectDir_reflectDir, Laser.mk.injEq]
  omega

theorem mirrorGrid_length (grid : List (List Tile)) :
    (mirrorGrid grid).length = grid.length := by
  simp [mirrorGrid]

theorem mirrorGrid_rect {grid : List (List Tile)} {width : Nat}
    (hrect : Rect grid width) : Rect (mirrorGrid grid) width := by
  intro row hrow
  unfold mirrorGrid at hrow
  rw [List.mem_map] at hrow
  obtain ⟨row₀, h₀, rfl⟩ := hrow
  simp [hrect row₀ h₀]

theorem mirrorGrid_mirrorGrid (grid : List (List Tile)) :
    mirrorGrid (mirrorGrid grid) = grid := by
  have hid : ∀ row : List Tile,
      (((row.map reflectTile).reverse).map reflectTile).reverse = row := by
    intro row
    rw [← List.map_reverse, List.reverse_reverse, List.map_map]
    have hc : reflectTile ∘ reflectTile = id := funext reflectTile_reflectTile
    rw [hc, List.map_id]
  induction grid with
  | nil => rfl
  | cons row rest ih =>
    unfold mirrorGrid at ih ⊢
    simp only [List.map_cons, List.cons.injEq]
    exact ⟨hid row, ih⟩

theorem tileAt_mirror {grid : List (List Tile)} {width y x : Nat}
    (hrect : Rect grid width) (hy : y < grid.length) (hx : x < width) :
    tileAt (mirrorGrid grid) y (width - 1 - x) = reflectTile (tileAt grid y x) := by
  unfold tileAt mirrorGrid
  rw [List.getElem?_map, List.getElem?_eq_getElem hy]
  simp only [Option.map_some', Option.getD_some]
  have hlen : (grid[y]).length = width := hrect _ (List.getElem_mem hy)
  have hb : width - 1 - x < ((grid[y]).map reflectTile).length := by
    rw [List.length_map, hlen]
    omega
  rw [List.getElem?_reverse hb]
  have hidx : ((grid[y]).map reflectTile).length - 1 - (width - 1 - x) = x := by
    rw [List.length_map, hlen]
    omega
  rw [hidx, List.getElem?_map]
  have hx2 : x < (grid[y]).length := by omega
  rw [List.getElem?_eq_getElem hx2]
  simp

theorem mem_new_directions_reflect :
    ∀ (t : Tile) (d d' : Direction),
      d' ∈ new_directions (reflectTile t) (reflectDir d) ↔
        reflectDir d' ∈ new_directions t d := by
  decide

theorem reflectLaser_with_dir (width : Nat) (l : Laser) (d' : Direction) :
    { reflectLaser width l with direction := d' } =
      reflectLaser width { l with direction := reflectDir d' } := by
  simp [reflectLaser, reflectDir_reflectDir]

/-- Stepping commutes with left-right reflection. -/
theorem next_tile_reflect {width height : Nat} {l : Laser} (hx : l.x < width) :
    next_tile width height (reflectLaser width l) =
      Option.map (reflectLaser width) (next_tile width height l) := by
  rcases l with ⟨x, y, d⟩
  simp only at hx
  cases d
  case Up =>
    simp only [next_tile, reflectLaser, reflectDir]
    by_cases hy : y > 0
    · rw [if_pos hy, if_pos hy]
      rfl
    · rw [if_neg hy, if_neg hy]
      rfl
  case Down =>
    simp only [next_tile, reflectLaser, reflectDir]
    by_cases hy : y + 1 < height
    · rw [if_pos hy, if_pos hy]
      rfl
    · rw [if_neg hy, if_neg hy]
      rfl
  case Left =>
    simp only [next_tile, reflectLaser, reflectDir]
    by_cases hx0 : x > 0
    · rw [if_pos (by omega : width - 1 - x + 1 < width), if_pos hx0]
      simp [Option.map_some', Laser.mk.injEq, reflectLaser, reflectDir]
      omega
    · rw [if_neg (by omega : ¬(width - 1 - x + 1 < width)), if_neg hx0]
      rfl
  case Right =>
    simp only [next_tile, reflectLaser, reflectDir]
    by_cases hx1 : x + 1 < width
    · rw [if_pos (by omega : width - 1 - x > 0), if_pos hx1]
      simp [Option.map_some', Laser.mk.injEq, reflectLaser, reflectDir]
      omega
    · rw [if_neg (by omega : ¬(width - 1 - x > 0)), if_neg hx1]
      rfl

/-- Successor cursors commute with left-right reflection. -/
theorem nexts_mirror {grid : List (List Tile)} {width height : Nat} {l : Laser}
    (hrect : Rect grid width) (hx : l.x < width) (hy : l.y < grid.length) :
    ∀ c, c ∈ nexts (mirrorGrid grid) width height (reflectLaser width l) ↔
      ∃ c₀ ∈ nexts grid width height l, c = reflectLaser width c₀ := by
  intro c
  unfold nexts
  have htile : tileAt (mirrorGrid grid) (reflectLaser width l).y
      (reflectLaser width l).x = reflectTile (tileAt grid l.y l.x) := by
    show tileAt (mirrorGrid grid) l.y (width - 1 - l.x) = _
    exact tileAt_mirror hrect hy hx
  rw [htile]
  constructor
  · intro hc
    rw [List.mem_filterMap] at hc
    obtain ⟨d', hd', hstep⟩ := hc
    have hd₀ : reflectDir d' ∈ new_directions (tileAt grid l.y l.x) l.direction :=
      (mem_new_directions_reflect _ _ _).1 hd'
    rw [reflectLaser_with_dir,
      next_tile_reflect (l := { l with direction := reflectDir d' }) hx] at hstep
    cases hnt : next_tile width height { l with direction := reflectDir d' } with
    | none =>
      rw [hnt] at hstep
      simp at hstep
    | some c₀ =>
      rw [hnt] at hstep
      simp only [Option.map_some', Option.some.injEq] at hstep
      refine ⟨c₀, ?_, hstep.symm⟩
      rw [List.mem_filterMap]
      exact ⟨reflectDir d', hd₀, hnt⟩
  · rintro ⟨c₀, hc₀, rfl⟩
    rw [List.mem_filterMap] at hc₀ ⊢
    obtain ⟨d₀, hd₀, hstep⟩ := hc₀
    refine ⟨reflectDir d₀, ?_, ?_⟩
    · have hm := (mem_new_directions_reflect (tileAt grid l.y l.x)
        l.direction (reflectDir d₀)).2
      rw [reflectDir_reflectDir] at hm
      exact hm hd₀
    · rw [reflectLaser_with_dir, reflectDir_reflectDir,
        next_tile_reflect (l := { l with direction := d₀ }) hx, hstep]
      rfl

/-- Reachability transports along a left-right reflection. -/
theorem reaches_mirror {grid : List (List Tile)} {width height : Nat}
    {start l : Laser} (hrect : Rect grid width) (hh : height = grid.length)
    (hsx : start.x < width) (hsy : start.y < height)
    (h : Reaches grid width height start l) :
    Reaches (mirrorGrid grid) width height (reflectLaser width start)
      (reflectLaser width l) := by
  induction h with
  | refl => exact Reaches.refl
  | @step b c hb hc ih =>
    have hbb := reaches_inBounds hsx hsy hb
    have hby : b.y < grid.length := by rw [← hh]; exact hbb.2
    exact Reaches.step ih
      ((nexts_mirror hrect hbb.1 hby (reflectLaser width c)).2 ⟨c, hc, rfl⟩)

/-- Reachability in the mirrored grid pulls back to the original grid. -/
theorem reaches_mirror_inv {grid : List (List Tile)} {width height : Nat}
    {start l' : Laser} (hrect : Rect grid width) (hh : height = grid.length)
    (hsx : start.x < width) (hsy : start.y < height)
    (h : Reaches (mirrorGrid grid) width height (reflectLaser width start) l') :
    Reaches grid width height start (reflectLaser width l') := by
  have hrect' : Rect (mirrorGrid grid) width := mirrorGrid_rect hrect
  have hh' : height = (mirrorGrid grid).length := by
    rw [mirrorGrid_length]
    exact hh
  have hsx' : (reflectLaser width start).x < width := by
    show width - 1 - start.x < width
    omega
  have h2 := reaches_mirror hrect' hh' hsx' hsy h
  rw [mirrorGrid_mirrorGrid, reflectLaser_reflectLaser hsx] at h2
  exact h2

theorem cellAt_oob_false {r : List (List Bool)} {width y x : Nat}
    (hrows : ∀ row ∈ r, row.length = width) (h : r.length ≤ y ∨ width ≤ x) :
    cellAt r y x = false := by
  unfold cellAt
  rcases h with h | h
  · rw [List.getElem?_eq_none h]
    rfl
  · cases hyy : r[y]? with
    | none => rfl
    | some row =>
      simp only [Option.getD_some]
      obtain ⟨hlt, heq2⟩ := List.getElem?_eq_some.1 hyy
      have hlen : row.length = width := heq2 ▸ hrows _ (List.getElem_mem hlt)
      rw [List.getElem?_eq_none (by omega : row.length ≤ x)]
      rfl

theorem cellAt_map_reverse {r : List (List Bool)} {width y x : Nat}
    (hrows : ∀ row ∈ r, row.length = width) (hx : x < width) :
    cellAt (r.map List.reverse) y x = cellAt r y (width - 1 - x) := by
  unfold cellAt
  rw [List.getElem?_map]
  cases hyy : r[y]? with
  | none => rfl
  | some row =>
    simp only [Option.map_some', Option.getD_some]
    obtain ⟨hlt, heq2⟩ := List.getElem?_eq_some.1 hyy
    have hlen : row.length = width := heq2 ▸ hrows _ (List.getElem_mem hlt)
    have hb : x < row.length := by omega
    rw [List.getElem?_reverse hb]
    have hidx : row.length - 1 - x = width - 1 - x := by omega
    rw [hidx]

theorem countEnergized_map_reverse (r : List (List Bool)) :
    countEnergized (r.map List.reverse) = countEnergized r := by
  induction r with
  | nil => rfl
  | cons row rest ih =>
    simp only [List.map_cons]
    rw [countEnergized_cons, countEnergized_cons, ih, List.filter_reverse,
      List.length_reverse]

/-- C9: left-right mirror symmetry. For every rectangular nonempty grid and
in-bounds start cursor, the mirrored grid (each row reversed, `/` and `\`
swapped) traversed from the reflected start cursor (x ↦ width−1−x, Left and
Right swapped) produces the same energized count as the original. -/
theorem mirror_symmetry {grid : List (List Tile)} {width : Nat} {start : Laser}
    (hrect : Rect grid width) (h0 : 0 < grid.length)
    (hx : start.x < width) (hy : start.y < grid.length) :
    fire_laser (mirrorGrid grid) (reflectLaser width start) = fire_laser grid start := by
  have hrect' := mirrorGrid_rect hrect
  have hml : (mirrorGrid grid).length = grid.length := mirrorGrid_length grid
  have h0' : 0 < (mirrorGrid grid).length := by rw [hml]; exact h0
  have hx' : (reflectLaser width start).x < width := by
    show width - 1 - start.x < width
    omega
  have hy' : (reflectLaser width start).y < (mirrorGrid grid).length := by
    rw [hml]
    exact hy
  obtain ⟨r, s, heq, hfl, hrl, hrr, hspec⟩ := fire_laser_characterize hrect h0 hx hy
  obtain ⟨r', s', heq', hfl', hrl', hrr', hspec'⟩ :=
    fire_laser_characterize hrect' h0' hx' hy'
  rw [hfl, hfl']
  have hmrows : ∀ row ∈ r.map List.reverse, row.length = width := by
    intro row hrow
    rw [List.mem_map] at hrow
    obtain ⟨row₀, h₀, rfl⟩ := hrow
    rw [List.length_reverse]
    exact hrr row₀ h₀
  have hr' : r' = r.map List.reverse := by
    apply @result_ext _ _ width
    · rw [hrl', hml, List.length_map, hrl]
    · exact hrr'
    · exact hmrows
    · intro x y
      by_cases hxb : x < width
      · rw [cellAt_map_reverse hrr hxb]
        apply bool_eq_of_iff
        rw [hspec' x y, hspec (width - 1 - x) y]
        constructor
        · rintro ⟨l', hl', hlx, hly⟩
          have hl'' : Reaches (mirrorGrid grid) width grid.length
              (reflectLaser width start) l' := hml ▸ hl'
          have h2 := reaches_mirror_inv hrect rfl hx hy hl''
          refine ⟨reflectLaser width l', h2, ?_, hly⟩
          show width - 1 - l'.x = width - 1 - x
          rw [hlx]
        · rintro ⟨l, hl, hlx, hly⟩
          have h2 := reaches_mirror hrect rfl hx hy hl
          have h3 : Reaches (mirrorGrid grid) width (mirrorGrid grid).length
              (reflectLaser width start) (reflectLaser width l) := hml.symm ▸ h2
          refine ⟨reflectLaser width l, h3, ?_, hly⟩
          show width - 1 - l.x = x
          rw [hlx]
          omega
      · rw [cellAt_oob_false hrr' (Or.inr (Nat.le_of_not_lt hxb)),
          cellAt_oob_false hmrows (Or.inr (Nat.le_of_not_lt hxb))]
  rw [hr', countEnergized_map_reverse]

theorem mirror_symmetry_witness :
    fire_laser (mirrorGrid [[Tile.FMirror, Tile.Empty]])
        (reflectLaser 2 { x := 0, y := 0, direction := Direction.Right }) =
      fire_laser [[Tile.FMirror, Tile.Empty]]
        { x := 0, y := 0, direction := Direction.Right } :=
  @mirror_symmetry [[Tile.FMirror, Tile.Empty]] 2
    { x := 0, y := 0, direction := Direction.Right }
    (by decide) (by decide) (by decide) (by decide)
